import Mathlib

/-!
Verification of the partitioned-aggregation MPI jobs (book-review statistics).

The definitions below are a shallow embedding of the Python sources:
`t3.py`, `t3_master_only.py`, `t3q2.py`, `t3q2_master.py`,
`src/q3/t3q3.py`, `src/q3/t3q3_master.py`, `src/q4/t3q4.py`,
`src/q4/t3q4_master.py`.  Machine floats are modelled by exact rationals
(the float values occurring in the claims are exactly representable),
pandas NA values by `Option`, Python dicts by association lists or by
total functions with a zero default, Python sets by `Finset String` and
`collections.Counter` by `Multiset String` (an element with multiplicity
k models a counter key with value k).
-/

/-- Python `a if a is not None else b` pattern used for first-writer-wins
price capture (`if g[2] is None and p is not None: g[2] = p`). -/
def oFirst {α : Type} (a b : Option α) : Option α :=
  match a with
  | some x => some x
  | none => b

/-- Python `int(r)` on a finite float: truncation toward zero
(`Int.div` is T-division, matching CPython `int()`). -/
def pyInt (q : ℚ) : ℤ := Int.tdiv q.num q.den

/-! ## Partitioner (t3q2_master.py lines 41-47, t3.py lines 89-91)

`base = N // W; lo = w*base; hi = (w+1)*base if w < W-1 else N`. -/

/-- Lower bound of the range of worker `w`. -/
def loF (N W w : ℕ) : ℕ := w * (N / W)

/-- Upper bound of the range of worker `w`. -/
def hiF (N W w : ℕ) : ℕ := if w < W - 1 then (w + 1) * (N / W) else N

/-- The list of `(lo, hi)` ranges built by the coordinator loop. -/
def ranges (N W : ℕ) : List (ℕ × ℕ) :=
  (List.range W).map (fun w => (loF N W w, hiF N W w))

/-! ## Q2 local aggregator (t3q2.py `_process_slice`, t3.py `_process_slice`)

A row of the Q2 dataset after the `pd.to_numeric(..., errors="coerce")`
normalisation: every field is either a value or NA. -/

structure Q2Row where
  bid : Option String
  rscore : Option ℚ
  bprice : Option ℚ
deriving DecidableEq

/-- Per-book rating sum (`df.groupby("BId")["RScore"].sum()`): the sum of
the present scores of the rows of this book; NaN scores are skipped and
an empty group sums to 0. -/
def q2Sum (rows : List Q2Row) (b : String) : ℚ :=
  ((rows.filter (fun r => decide (r.bid = some b))).filterMap (fun r => r.rscore)).sum

/-- Per-book rating count (`rcnt = df["RScore"].notna() ... groupby.sum()`). -/
def q2Cnt (rows : List Q2Row) (b : String) : ℕ :=
  ((rows.filter (fun r => decide (r.bid = some b))).filterMap (fun r => r.rscore)).length

/-- Per-book price (`price_any = df.dropna(subset=["BPrice"])
.drop_duplicates(subset=["BId"], keep="last")` then left-join): the LAST
row of the slice with this book id and a present price. -/
def q2Price (rows : List Q2Row) (b : String) : Option ℚ :=
  ((rows.filter (fun r => decide (r.bid = some b))).filterMap (fun r => r.bprice)).getLast?

/-- Modelled from the spec: the price "captured once from the first row in
which it is present" (section 3, `firstNonNullAttribute`).  Used to compare
the specified behaviour with the code of `_process_slice`. -/
def specFirstSeenPrice (rows : List Q2Row) (b : String) : Option ℚ :=
  (rows.filter (fun r => decide (r.bid = some b))).findSome? (fun r => r.bprice)

/-- A Q2 partial/merged aggregate entry: `(sum_scores, cnt_scores, price)`
as sent back by `_process_slice` and accumulated by the master. -/
structure Q2Entry where
  s : ℚ
  c : ℕ
  p : Option ℚ
deriving DecidableEq

/-- The entry `_process_slice` builds for one book id. -/
def q2EntryOf (rows : List Q2Row) (b : String) : Q2Entry :=
  ⟨q2Sum rows b, q2Cnt rows b, q2Price rows b⟩

/-- The book ids of a slice (pandas groupby keys: the distinct non-NA
`BId` values, first occurrence first). -/
def q2Bids (rows : List Q2Row) : List String :=
  (rows.filterMap (fun r => r.bid)).dedup

/-- The compact `part_map` a Q2 worker returns for its slice. -/
def q2PartMap (rows : List Q2Row) : List (String × Q2Entry) :=
  (q2Bids rows).map (fun b => (b, q2EntryOf rows b))

/-! ## Q2 merge and exact eligibility (t3q2_master.py lines 75-89) -/

/-- Zero entry created by `global_map.setdefault(bid, [0.0, 0, None])`. -/
def q2Zero : Q2Entry := ⟨0, 0, none⟩

/-- One accumulation step of the Q2 master merge loop:
`g[0] += float(s); g[1] += int(c); if g[2] is None and p is not None: g[2] = p`. -/
def q2Combine (a b : Q2Entry) : Q2Entry := ⟨a.s + b.s, a.c + b.c, oFirst a.p b.p⟩

/-- Folding one partial map into the Q2 global map (inner loop of the merge). -/
def q2MergeMap (g : String → Q2Entry) (m : List (String × Q2Entry)) : String → Q2Entry :=
  m.foldl (fun g' pr => fun id => if id = pr.1 then q2Combine (g' id) pr.2 else g' id) g

/-- The Q2 global map produced by merging the worker partial maps in gather
order (lookup semantics: ids never seen map to the zero entry). -/
def q2MergeAll (maps : List (List (String × Q2Entry))) : String → Q2Entry :=
  maps.foldl q2MergeMap (fun _ => q2Zero)

/-- The ids appearing in any partial map (the key set of the Python dict). -/
def q2Domain (maps : List (List (String × Q2Entry))) : List String :=
  ((maps.map (fun m => m.map Prod.fst)).flatten).dedup

/-- Final exact eligibility check of `t3q2_master.py` line 88:
`c > 0 and (s == 5 * c) and (price == 2)`. -/
def q2Eligible (e : Q2Entry) : Bool :=
  decide (0 < e.c) && decide (e.s = 5 * (e.c : ℚ)) && decide (e.p = some 2)

/-- The quotient `avg = s / c` computed by `t3.py` line 115 and
`t3_master_only.py` line 73 (exact value of the division operands). -/
def t3Avg (s : ℚ) (c : ℕ) : ℚ := s / (c : ℚ)

/-- Half the distance between 5.0 and its binary64 neighbours
(ulp of 5.0 is 2^(-50)): any real closer to 5 than this rounds to exactly
5.0 under IEEE-754 round-to-nearest, so a binary64 division returning this
close a quotient makes the Python test `avg == 5` succeed. -/
def halfUlpAtFive : ℚ := 1 / 2 ^ 51

/-! ## Theorems: partitioner (claim C3) -/

theorem ranges_get (N W w : ℕ) (h : w < W) :
    (ranges N W)[w]? = some (loF N W w, hiF N W w) := by
  simp [ranges, List.getElem?_map, List.getElem?_range h]

theorem hiF_of_lt {N W w : ℕ} (h : w < W - 1) : hiF N W w = (w + 1) * (N / W) :=
  if_pos h

theorem hiF_at_last (N W : ℕ) : hiF N W (W - 1) = N :=
  if_neg (lt_irrefl _)

theorem size_of_lt {N W w : ℕ} (h : w < W - 1) :
    hiF N W w - loF N W w = N / W := by
  rw [hiF_of_lt h]
  show (w + 1) * (N / W) - w * (N / W) = N / W
  rw [Nat.succ_mul]
  exact Nat.add_sub_cancel_left _ _

/-- Claim C3: for total rows `N > 0` and workers `W ≥ 1` the partitioner
produces exactly `W` contiguous, gap-free ranges: the first lower bound is
0, the last upper bound is `N`, each upper bound equals the next lower
bound, each of the first `W-1` workers gets exactly `⌊N/W⌋` rows, the last
worker absorbs the remainder `⌊N/W⌋ + N % W`, every range is well formed,
and the sizes sum exactly to `N`. -/
theorem partitioner_ranges_correct (N W : ℕ) (hN : 0 < N) (hW : 1 ≤ W) :
    (ranges N W).length = W
    ∧ loF N W 0 = 0
    ∧ hiF N W (W - 1) = N
    ∧ (∀ i, i + 1 < W → hiF N W i = loF N W (i + 1))
    ∧ (∀ i, i < W - 1 → hiF N W i - loF N W i = N / W)
    ∧ hiF N W (W - 1) - loF N W (W - 1) = N / W + N % W
    ∧ (∀ i, i < W → loF N W i ≤ hiF N W i)
    ∧ (Finset.range W).sum (fun w => hiF N W w - loF N W w) = N := by
  obtain ⟨V, rfl⟩ : ∃ V, W = V + 1 := ⟨W - 1, by omega⟩
  have hV1 : V + 1 - 1 = V := rfl
  have key : V * (N / (V + 1)) + N / (V + 1) + N % (V + 1) = N := by
    rw [← Nat.succ_mul]
    exact Nat.div_add_mod N (V + 1)
  have key2 : V * (N / (V + 1)) + (N / (V + 1) + N % (V + 1)) = N := by
    rw [← Nat.add_assoc]
    exact key
  have hple : V * (N / (V + 1)) ≤ N := Nat.le.intro key2
  refine ⟨by simp [ranges], by simp [loF], hiF_at_last N (V + 1), ?_, ?_, ?_, ?_, ?_⟩
  · intro i hi
    have h : i < V + 1 - 1 := by omega
    rw [hiF_of_lt h]
    rfl
  · intro i hi
    exact size_of_lt hi
  · rw [hiF_at_last]
    show N - loF N (V + 1) (V + 1 - 1) = N / (V + 1) + N % (V + 1)
    rw [hV1]
    show N - V * (N / (V + 1)) = N / (V + 1) + N % (V + 1)
    refine Nat.sub_eq_of_eq_add ?_
    conv_lhs => rw [← key2]
    ring
  · intro i hi
    by_cases h : i < V + 1 - 1
    · rw [hiF_of_lt h]
      show i * (N / (V + 1)) ≤ (i + 1) * (N / (V + 1))
      exact Nat.mul_le_mul_right _ (Nat.le_succ i)
    · have hiV : i = V := by omega
      rw [hiV]
      have hhi : hiF N (V + 1) V = N := by
        rw [← hV1]
        exact hiF_at_last N (V + 1)
      rw [hhi]
      show V * (N / (V + 1)) ≤ N
      exact hple
  · rw [Finset.sum_range_succ]
    have hstep : ∀ w ∈ Finset.range V, hiF N (V + 1) w - loF N (V + 1) w = N / (V + 1) := by
      intro w hw
      have hwlt : w < V + 1 - 1 := by
        rw [hV1]
        exact Finset.mem_range.mp hw
      exact size_of_lt hwlt
    rw [Finset.sum_congr rfl hstep, Finset.sum_const, Finset.card_range, smul_eq_mul]
    have hlastr : hiF N (V + 1) V = N := by
      rw [← hV1]
      exact hiF_at_last N (V + 1)
    rw [hlastr]
    show V * (N / (V + 1)) + (N - V * (N / (V + 1))) = N
    exact Nat.add_sub_cancel' hple

theorem partitioner_ranges_correct_witness :
    0 < 7 ∧ 1 ≤ 3 ∧ (ranges 7 3).length = 3 ∧
      (Finset.range 3).sum (fun w => hiF 7 3 w - loF 7 3 w) = 7 :=
  ⟨by decide, by decide,
    (partitioner_ranges_correct 7 3 (by decide) (by decide)).1,
    (partitioner_ranges_correct 7 3 (by decide) (by decide)).2.2.2.2.2.2.2⟩

/-! ## Merge Engine (t3q2_master.py lines 75-83, t3q3_master.py lines 86-94,
t3q4_master.py lines 87-95)

The three coordinator merge loops are the same fold specialised to
different field subsets; `Entry` carries the union of the fields of the
spec data model (section 3).  A Python `Counter` of labels is modelled by
a `Multiset String` and a Python set of ids by a `Finset String`; the
global dict is modelled by its lookup function, ids never inserted
mapping to the zero entry `setdefault` would create. -/

structure Entry where
  sum : ℚ
  cnt : ℕ
  books : Finset String
  labels : Multiset String
  price : Option ℚ
deriving DecidableEq

/-- `global_map.setdefault(id, zero)`: zero sums, empty set, empty counter,
no price. -/
def zeroE : Entry := ⟨0, 0, ∅, 0, none⟩

/-- One entry-level merge step: sums and counts added, book sets unioned
(`u["books"].update(...)`), label counters summed key-wise
(`u["name_counts"].update(...)` / `b["title_counts"].update(...)`), price
first-writer-wins (`if b["price"] is None and info["price"] is not None`). -/
def combineE (a b : Entry) : Entry :=
  ⟨a.sum + b.sum, a.cnt + b.cnt, a.books ∪ b.books, a.labels + b.labels, oFirst a.price b.price⟩

/-- A partial-aggregate map as sent by one worker: entity id to entry, in
dict iteration order. -/
abbrev PartMap := List (String × Entry)

/-- Inner merge loop: fold the items of one partial map into the global map. -/
def mergeMap (g : String → Entry) (m : PartMap) : String → Entry :=
  m.foldl (fun g' pr => fun id => if id = pr.1 then combineE (g' id) pr.2 else g' id) g

/-- Outer merge loop: fold every partial map, in gather order, into the
initially empty global map. -/
def mergeAll (l : List PartMap) : String → Entry :=
  l.foldl mergeMap (fun _ => zeroE)

theorem combineE_zero_left (e : Entry) : combineE zeroE e = e := by
  cases e with
  | mk s c b lb p =>
    simp [combineE, zeroE, oFirst]

theorem combineE_zero_right (e : Entry) : combineE e zeroE = e := by
  cases e with
  | mk s c b lb p =>
    cases p <;> simp [combineE, zeroE, oFirst]

theorem oFirst_assoc (a b c : Option ℚ) :
    oFirst (oFirst a b) c = oFirst a (oFirst b c) := by
  cases a <;> cases b <;> simp [oFirst]

theorem combineE_assoc (a b c : Entry) :
    combineE (combineE a b) c = combineE a (combineE b c) := by
  simp [combineE, oFirst_assoc, add_assoc, Finset.union_assoc]

theorem mergeMap_hom (m : PartMap) :
    ∀ (g : String → Entry) (id : String),
      mergeMap g m id = combineE (g id) (mergeMap (fun _ => zeroE) m id) := by
  induction m with
  | nil =>
    intro g id
    simp [mergeMap, combineE_zero_right]
  | cons p rest ih =>
    intro g id
    show mergeMap (fun i => if i = p.1 then combineE (g i) p.2 else g i) rest id = _
    rw [ih]
    conv_rhs =>
      rw [show mergeMap (fun _ => zeroE) (p :: rest) id
            = mergeMap (fun i => if i = p.1 then combineE (zeroE) p.2 else zeroE) rest id from rfl]
    rw [ih (fun i => if i = p.1 then combineE zeroE p.2 else zeroE) id]
    by_cases h : id = p.1
    · simp only [if_pos h, combineE_zero_left]
      rw [combineE_assoc]
    · simp only [if_neg h, combineE_zero_left]

theorem mergeAll_append (l₁ l₂ : List PartMap) (id : String) :
    mergeAll (l₁ ++ l₂) id = combineE (mergeAll l₁ id) (mergeAll l₂ id) := by
  have haux : ∀ (l : List PartMap) (g : String → Entry) (id : String),
      (l.foldl mergeMap g) id = combineE (g id) (mergeAll l id) := by
    intro l
    induction l with
    | nil =>
      intro g id
      simp [mergeAll, combineE_zero_right]
    | cons m rest ih =>
      intro g id
      show (rest.foldl mergeMap (mergeMap g m)) id = _
      rw [ih]
      have h2 : mergeAll (m :: rest) id = combineE (mergeMap (fun _ => zeroE) m id) (mergeAll rest id) := by
        show (rest.foldl mergeMap (mergeMap (fun _ => zeroE) m)) id = _
        rw [ih]
      rw [h2, mergeMap_hom, combineE_assoc]
  show ((l₁ ++ l₂).foldl mergeMap (fun _ => zeroE)) id = _
  rw [List.foldl_append]
  exact haux l₂ (mergeAll l₁) id

/-- The entries a single partial map contributes to one entity id, in map
order. -/
def entriesOf (m : PartMap) (id : String) : List Entry :=
  (m.filter (fun pr => decide (pr.1 = id))).map Prod.snd

/-- The merged contribution of one partial map to one entity id. -/
def mapContrib (m : PartMap) (id : String) : Entry :=
  mergeMap (fun _ => zeroE) m id

theorem foldl_combineE_pull (es : List Entry) :
    ∀ a : Entry, es.foldl combineE a = combineE a (es.foldl combineE zeroE) := by
  induction es with
  | nil =>
    intro a
    exact (combineE_zero_right a).symm
  | cons e es ih =>
    intro a
    show List.foldl combineE (combineE a e) es = _
    rw [ih (combineE a e), combineE_assoc]
    congr 1
    show combineE e (List.foldl combineE zeroE es) = List.foldl combineE (combineE zeroE e) es
    rw [combineE_zero_left, ih e]

theorem mapContrib_eq_foldl (m : PartMap) (id : String) :
    mapContrib m id = (entriesOf m id).foldl combineE zeroE := by
  induction m with
  | nil => rfl
  | cons p rest ih =>
    show mergeMap (fun i => if i = p.1 then combineE zeroE p.2 else zeroE) rest id = _
    rw [mergeMap_hom]
    by_cases h : id = p.1
    · simp only [if_pos h, combineE_zero_left]
      have hfe : entriesOf (p :: rest) id = p.2 :: entriesOf rest id := by
        simp [entriesOf, List.filter_cons, h.symm]
      rw [hfe]
      show combineE p.2 (mapContrib rest id)
          = List.foldl combineE (combineE zeroE p.2) (entriesOf rest id)
      rw [combineE_zero_left, foldl_combineE_pull (entriesOf rest id) p.2, ih]
    · simp only [if_neg h, combineE_zero_left]
      have hfe : entriesOf (p :: rest) id = entriesOf rest id := by
        have hne : ¬ (p.1 = id) := fun hc => h hc.symm
        simp [entriesOf, List.filter_cons, hne]
      rw [hfe]
      exact ih

theorem mergeAll_cons (m : PartMap) (rest : List PartMap) (id : String) :
    mergeAll (m :: rest) id = combineE (mapContrib m id) (mergeAll rest id) := by
  have h1 : mergeAll (m :: rest) id = mergeAll ([m] ++ rest) id := rfl
  rw [h1, mergeAll_append]
  rfl

/-- Stripped entry: the four components of an entry whose merge is fully
commutative (everything except the first-writer-wins price). -/
def stripE (e : Entry) : ℚ × ℕ × Finset String × Multiset String :=
  (e.sum, e.cnt, e.books, e.labels)

/-- Componentwise sum of stripped entries. -/
def saddE (x y : ℚ × ℕ × Finset String × Multiset String) :
    ℚ × ℕ × Finset String × Multiset String :=
  (x.1 + y.1, x.2.1 + y.2.1, x.2.2.1 ∪ y.2.2.1, x.2.2.2 + y.2.2.2)

theorem stripE_combineE (a b : Entry) :
    stripE (combineE a b) = saddE (stripE a) (stripE b) := rfl

theorem saddE_comm (x y : ℚ × ℕ × Finset String × Multiset String) :
    saddE x y = saddE y x := by
  simp [saddE, add_comm, Finset.union_comm]

theorem saddE_assoc (x y z : ℚ × ℕ × Finset String × Multiset String) :
    saddE (saddE x y) z = saddE x (saddE y z) := by
  simp [saddE, add_assoc, Finset.union_assoc]

theorem mergeAll_strip_foldr (l : List PartMap) (id : String) :
    stripE (mergeAll l id)
      = l.foldr (fun m acc => saddE (stripE (mapContrib m id)) acc) (stripE zeroE) := by
  induction l with
  | nil => rfl
  | cons m rest ih =>
    rw [List.foldr_cons, ← ih, mergeAll_cons, stripE_combineE]

theorem foldr_saddE_perm {α : Type} (f : α → ℚ × ℕ × Finset String × Multiset String)
    {l l' : List α} (h : l.Perm l') (z : ℚ × ℕ × Finset String × Multiset String) :
    l.foldr (fun m acc => saddE (f m) acc) z = l'.foldr (fun m acc => saddE (f m) acc) z := by
  induction h with
  | nil => rfl
  | cons x _ ih =>
    simp only [List.foldr_cons]
    rw [ih]
  | swap x y l =>
    simp only [List.foldr_cons]
    rw [← saddE_assoc, saddE_comm (f y) (f x), saddE_assoc]
  | trans _ _ ih1 ih2 =>
    rw [ih1, ih2]

/-- Claim C2 (amended): the Merge Engine is a fold with an associative
combination: merging any order-preserving split of the partial-map list
in two groups and then merging the two merged results gives the same
global map as merging the full list at once; and under any reordering of
the list the merged sumScore, count, distinct-id set and label-frequency
components of every entity are unchanged (the first-writer-wins price may
depend on the order when partial maps disagree about an entity price). -/
theorem merge_engine_split_and_reorder :
    (∀ (l₁ l₂ : List PartMap) (id : String),
        mergeAll (l₁ ++ l₂) id = combineE (mergeAll l₁ id) (mergeAll l₂ id))
    ∧ (∀ (l l' : List PartMap), l.Perm l' → ∀ id : String,
        (mergeAll l id).sum = (mergeAll l' id).sum
        ∧ (mergeAll l id).cnt = (mergeAll l' id).cnt
        ∧ (mergeAll l id).books = (mergeAll l' id).books
        ∧ (mergeAll l id).labels = (mergeAll l' id).labels) := by
  refine ⟨mergeAll_append, ?_⟩
  intro l l' h id
  have hs : stripE (mergeAll l id) = stripE (mergeAll l' id) := by
    rw [mergeAll_strip_foldr, mergeAll_strip_foldr]
    exact foldr_saddE_perm (fun m => stripE (mapContrib m id)) h (stripE zeroE)
  exact ⟨congrArg (fun x => x.1) hs, congrArg (fun x => x.2.1) hs,
    congrArg (fun x => x.2.2.1) hs, congrArg (fun x => x.2.2.2) hs⟩

/-- Entry carrying only a price of 1 (used by the merge counterexample). -/
def cxE1 : Entry := ⟨0, 0, ∅, 0, some 1⟩

/-- Entry carrying only a price of 2 (used by the merge counterexample). -/
def cxE2 : Entry := ⟨0, 0, ∅, 0, some 2⟩

/-- Claim C2 counterexample: reordering the list of partial maps is NOT
always invariant — two partial maps that disagree about the price of the
same book id merge to different global entries in the two orders, because
the price is first-writer-wins.  The two lists are reorderings (and also
a regrouping: group two then group one) of each other. -/
theorem merge_reorder_counterexample :
    (mergeAll [[("b", cxE1)], [("b", cxE2)]] "b").price = some 1
    ∧ (mergeAll [[("b", cxE2)], [("b", cxE1)]] "b").price = some 2
    ∧ mergeAll [[("b", cxE1)], [("b", cxE2)]] "b" ≠ mergeAll [[("b", cxE2)], [("b", cxE1)]] "b"
    ∧ ([[("b", cxE1)], [("b", cxE2)]] : List PartMap).Perm [[("b", cxE2)], [("b", cxE1)]] := by
  refine ⟨rfl, rfl, ?_, List.Perm.swap _ _ _⟩
  intro hEq
  have hp : (some (1 : ℚ)) = some 2 := congrArg Entry.price hEq
  exact absurd (Option.some.inj hp) (by norm_num)

theorem merge_engine_split_and_reorder_witness :
    mergeAll ([[("b", cxE1)]] ++ [[("b", cxE2)]]) "b"
        = combineE (mergeAll [[("b", cxE1)]] "b") (mergeAll [[("b", cxE2)]] "b")
    ∧ (mergeAll [[("b", cxE1)], [("b", cxE2)]] "b").sum
        = (mergeAll [[("b", cxE2)], [("b", cxE1)]] "b").sum :=
  ⟨merge_engine_split_and_reorder.1 [[("b", cxE1)]] [[("b", cxE2)]] "b",
   (merge_engine_split_and_reorder.2 [[("b", cxE1)], [("b", cxE2)]]
      [[("b", cxE2)], [("b", cxE1)]] (List.Perm.swap _ _ _) "b").1⟩

/-! ## Q3 local aggregator (t3q3.py `_work`, lines 48-73) -/

structure Q3Row where
  uid : Option String
  uname : Option String
  bid : Option String
  rscore : Option ℚ
deriving DecidableEq

structure Q3Entry where
  sum : ℤ
  cnt : ℕ
  books : Finset String
  names : Multiset String
deriving DecidableEq

/-- `defaultdict` default: `{"sum": 0, "cnt": 0, "books": set(), "name_counts": Counter()}`. -/
def q3Zero : Q3Entry := ⟨0, 0, ∅, 0⟩

/-- One iteration of the Q3 row loop: skip on missing score, then on a
missing user or book id; otherwise add `int(r)` to the sum, bump the
count, add the book id to the set and count the stripped nonempty user
name.  The state is the per-user map (total function, default `q3Zero`)
plus the list of user ids in first-touch order (`len(local)` is its
length). -/
def q3Step (st : (String → Q3Entry) × List String) (row : Q3Row) :
    (String → Q3Entry) × List String :=
  match row.rscore with
  | none => st
  | some r =>
    match row.uid, row.bid with
    | some u, some b =>
      let e := st.1 u
      let names :=
        match row.uname with
        | none => e.names
        | some nm => if nm.trim = "" then e.names else nm.trim ::ₘ e.names
      (fun id => if id = u then ⟨e.sum + pyInt r, e.cnt + 1, insert b e.books, names⟩ else st.1 id,
       if u ∈ st.2 then st.2 else st.2 ++ [u])
    | _, _ => st

/-- The Q3 worker aggregation over one partition. -/
def q3Work (rows : List Q3Row) : (String → Q3Entry) × List String :=
  rows.foldl q3Step (fun _ => q3Zero, [])

/-! ## Q4 local aggregator (t3q4.py `_work`, lines 48-83) -/

structure Q4Row where
  bid : Option String
  btitle : Option String
  bprice : Option ℚ
  rscore : Option ℚ
deriving DecidableEq

structure Q4Entry where
  sum : ℤ
  cnt : ℕ
  price : Option ℚ
  titles : Multiset String
deriving DecidableEq

/-- `defaultdict` default: `{"sum": 0, "cnt": 0, "price": None, "title_counts": Counter()}`. -/
def q4Zero : Q4Entry := ⟨0, 0, none, 0⟩

/-- One iteration of the Q4 row loop: skip on missing score, then on a
missing book id; otherwise add `int(r)` to the sum, bump the count,
capture the price if not already captured and count the stripped
nonempty title. -/
def q4Step (st : (String → Q4Entry) × List String) (row : Q4Row) :
    (String → Q4Entry) × List String :=
  match row.rscore with
  | none => st
  | some r =>
    match row.bid with
    | none => st
    | some b =>
      let e := st.1 b
      let titles :=
        match row.btitle with
        | none => e.titles
        | some t => if t.trim = "" then e.titles else t.trim ::ₘ e.titles
      (fun id =>
        if id = b then ⟨e.sum + pyInt r, e.cnt + 1, oFirst e.price row.bprice, titles⟩
        else st.1 id,
       if b ∈ st.2 then st.2 else st.2 ++ [b])

/-- The Q4 worker aggregation over one partition. -/
def q4Work (rows : List Q4Row) : (String → Q4Entry) × List String :=
  rows.foldl q4Step (fun _ => q4Zero, [])

/-- The first price the Q4 row loop can capture for book `b`: the first
non-missing `BPrice` among the non-skipped rows of `b`. -/
def q4FirstPrice (rows : List Q4Row) (b : String) : Option ℚ :=
  (rows.filter (fun r => decide (r.bid = some b) && r.rscore.isSome)).findSome?
    (fun r => r.bprice)

/-! ## Row-skip and price-capture lemmas -/

theorem foldl_filter_skip {σ ρ : Type} (f : σ → ρ → σ) (p : ρ → Bool)
    (hskip : ∀ st r, p r = false → f st r = st) :
    ∀ (rows : List ρ) (st : σ), rows.foldl f st = (rows.filter p).foldl f st := by
  intro rows
  induction rows with
  | nil => intro st; rfl
  | cons r rest ih =>
    intro st
    cases hp : p r
    · rw [List.filter_cons_of_neg (by simp [hp])]
      show List.foldl f (f st r) rest = _
      rw [hskip st r hp]
      exact ih st
    · rw [List.filter_cons_of_pos (by simp [hp])]
      show List.foldl f (f st r) rest = List.foldl f (f st r) (rest.filter p)
      exact ih (f st r)

theorem q3Step_skip (st : (String → Q3Entry) × List String) (r : Q3Row)
    (h : (r.rscore.isSome && r.uid.isSome) = false) : q3Step st r = st := by
  cases hr : r.rscore with
  | none => simp [q3Step, hr]
  | some v =>
    cases hu : r.uid with
    | none => cases hb : r.bid <;> simp [q3Step, hr, hu, hb]
    | some u =>
      rw [hr, hu] at h
      simp at h

theorem q4Step_skip (st : (String → Q4Entry) × List String) (r : Q4Row)
    (h : (r.rscore.isSome && r.bid.isSome) = false) : q4Step st r = st := by
  cases hr : r.rscore with
  | none => simp [q4Step, hr]
  | some v =>
    cases hb : r.bid with
    | none => simp [q4Step, hr, hb]
    | some b =>
      rw [hr, hb] at h
      simp at h

/-- Claim C9: rows with a missing/non-numeric rating or a missing primary
entity id never change the aggregation state: the Q3 and Q4 local
aggregators produce exactly the same output (per-entity map and
entities-seen list) on a partition as on the partition with all such rows
removed. -/
theorem row_skip_invariance :
    (∀ rows : List Q3Row,
        q3Work rows = q3Work (rows.filter (fun r => r.rscore.isSome && r.uid.isSome)))
    ∧ (∀ rows : List Q4Row,
        q4Work rows = q4Work (rows.filter (fun r => r.rscore.isSome && r.bid.isSome))) :=
  ⟨fun rows => foldl_filter_skip q3Step (fun r => r.rscore.isSome && r.uid.isSome)
      q3Step_skip rows (fun _ => q3Zero, []),
   fun rows => foldl_filter_skip q4Step (fun r => r.rscore.isSome && r.bid.isSome)
      q4Step_skip rows (fun _ => q4Zero, [])⟩

theorem oFirst_none_right {α : Type} (a : Option α) : oFirst a none = a := by
  cases a <;> rfl

theorem findSome?_oFirst {α β : Type} (f : α → Option β) (r : α) (l : List α) :
    (r :: l).findSome? f = oFirst (f r) (l.findSome? f) := by
  cases hf : f r <;> simp [List.findSome?_cons, hf, oFirst]

theorem q4_foldl_price (rows : List Q4Row) :
    ∀ (st : (String → Q4Entry) × List String) (b : String),
      (((rows.foldl q4Step st).1) b).price = oFirst ((st.1 b).price) (q4FirstPrice rows b) := by
  induction rows with
  | nil =>
    intro st b
    exact (oFirst_none_right _).symm
  | cons r rest ih =>
    intro st b
    cases hr : r.rscore with
    | none =>
      have hskip : q4Step st r = st := q4Step_skip st r (by simp [hr])
      show (((rest.foldl q4Step (q4Step st r)).1) b).price = _
      rw [hskip, ih st b]
      have hfp : q4FirstPrice (r :: rest) b = q4FirstPrice rest b := by
        unfold q4FirstPrice
        rw [List.filter_cons_of_neg (by simp [hr])]
      rw [hfp]
    | some v =>
      cases hb : r.bid with
      | none =>
        have hskip : q4Step st r = st := q4Step_skip st r (by simp [hb])
        show (((rest.foldl q4Step (q4Step st r)).1) b).price = _
        rw [hskip, ih st b]
        have hfp : q4FirstPrice (r :: rest) b = q4FirstPrice rest b := by
          unfold q4FirstPrice
          rw [List.filter_cons_of_neg (by simp [hb])]
        rw [hfp]
      | some u =>
        by_cases hub : u = b
        · rw [hub] at hb
          have hfp : q4FirstPrice (r :: rest) b
              = oFirst r.bprice (q4FirstPrice rest b) := by
            unfold q4FirstPrice
            rw [List.filter_cons_of_pos (by simp [hb, hr])]
            exact findSome?_oFirst _ r _
          have hstep : ((q4Step st r).1 b).price = oFirst ((st.1 b).price) r.bprice := by
            simp [q4Step, hr, hb]
          show (((rest.foldl q4Step (q4Step st r)).1) b).price = _
          rw [ih (q4Step st r) b, hstep, hfp, oFirst_assoc]
        · have hfp : q4FirstPrice (r :: rest) b = q4FirstPrice rest b := by
            unfold q4FirstPrice
            rw [List.filter_cons_of_neg (by simp [hb, hub])]
          have hstep : ((q4Step st r).1 b).price = ((st.1 b)).price := by
            have hne : ¬ (b = u) := fun hc => hub hc.symm
            simp [q4Step, hr, hb, hne]
          show (((rest.foldl q4Step (q4Step st r)).1) b).price = _
          rw [ih (q4Step st r) b, hstep, hfp]

/-- Claim C7 (amended): the Q4 local aggregator captures the price of a
book from the first non-skipped row of the partition in which the price
is present, and the merge keeps the price first-writer-wins in fold order:
combining a later group of partial maps never changes a price already
captured by an earlier group.  The Q2 local aggregator however keeps the
LAST non-missing price of its partition (`drop_duplicates(keep="last")`),
shown by the accompanying counterexample. -/
theorem price_first_capture_amended :
    (∀ (rows : List Q4Row) (b : String),
        (((q4Work rows).1) b).price = q4FirstPrice rows b)
    ∧ (∀ (l₁ l₂ : List PartMap) (id : String),
        (mergeAll (l₁ ++ l₂) id).price
          = oFirst ((mergeAll l₁ id).price) ((mergeAll l₂ id).price))
    ∧ (∀ (l l' : List PartMap) (id : String) (p : ℚ),
        (mergeAll l id).price = some p → (mergeAll (l ++ l') id).price = some p) := by
  refine ⟨?_, ?_, ?_⟩
  · intro rows b
    rw [show q4Work rows = rows.foldl q4Step (fun _ => q4Zero, []) from rfl,
      q4_foldl_price rows (fun _ => q4Zero, []) b]
    rfl
  · intro l₁ l₂ id
    rw [mergeAll_append]
    rfl
  · intro l l' id p hp
    rw [mergeAll_append]
    show oFirst ((mergeAll l id).price) ((mergeAll l' id).price) = some p
    rw [hp]
    rfl

/-- Rows used by the price counterexample: the same book appears twice
with prices 1 then 2. -/
def c7rows : List Q2Row := [⟨some "b", some 5, some 1⟩, ⟨some "b", some 5, some 2⟩]

/-- Claim C7 counterexample: on a partition where book `b` carries price 1
in its first row and price 2 in its second, the Q2 local aggregator
(`t3q2.py` lines 53-57, `keep="last"`) reports price 2 — the price of the
LAST row — while the spec-modelled first-seen capture reports price 1. -/
theorem q2_price_last_counterexample :
    q2Price c7rows "b" = some 2
    ∧ specFirstSeenPrice c7rows "b" = some 1
    ∧ q2Price c7rows "b" ≠ specFirstSeenPrice c7rows "b" := by
  refine ⟨rfl, rfl, ?_⟩
  intro h
  have h2 : (2 : ℚ) = 1 := Option.some.inj h
  norm_num at h2

/-- Q4 row used by the price witness. -/
def w4row : Q4Row := ⟨some "b", some "T", some 3, some 4⟩

theorem price_first_capture_amended_witness :
    (((q4Work [w4row]).1) "b").price = some 3
    ∧ (mergeAll ([[("b", cxE1)]] ++ [[("b", cxE2)]]) "b").price = some 1 :=
  ⟨(price_first_capture_amended.1 [w4row] "b").trans rfl,
   price_first_capture_amended.2.2 [[("b", cxE1)]] [[("b", cxE2)]] "b" 1 rfl⟩

/-! ## Integrality of sumScore (claim C4) -/

theorem sum_den_one {l : List ℚ} (h : ∀ q ∈ l, q.den = 1) : l.sum.den = 1 := by
  induction l with
  | nil => rfl
  | cons q l ih =>
    obtain hq := (Rat.den_eq_one_iff q).mp (h q (List.mem_cons_self _ _))
    have hl : l.sum.den = 1 := ih (fun x hx => h x (List.mem_cons_of_mem _ hx))
    obtain hql := (Rat.den_eq_one_iff l.sum).mp hl
    rw [List.sum_cons, ← hq, ← hql, ← Int.cast_add]
    exact Rat.den_intCast _

/-- Claim C4 (amended): in the Q3/Q4 variants the sumScore is an integer
by construction (each rating is truncated with `int(r)` and summed in ℤ);
in the Q2 variants the partial sumScore is the exact sum of the present
ratings of the partition, which is an integer whenever every present
rating is integral — but not in general, as the accompanying
counterexample with a rating of 9/2 shows. -/
theorem q2_sum_integer_when_ratings_integral :
    ∀ (rows : List Q2Row) (b : String),
      (∀ r ∈ rows, (r.rscore.getD 0).den = 1) →
      (q2Sum rows b).den = 1 := by
  intro rows b h
  apply sum_den_one
  intro q hq
  rw [List.mem_filterMap] at hq
  obtain ⟨r, hr, hrs⟩ := hq
  have hr' : r ∈ rows := List.mem_of_mem_filter hr
  have hd := h r hr'
  rw [hrs] at hd
  simpa using hd

/-- Partition used by the sumScore counterexample: one row of book `b`
whose rating value is 4.5 (exactly representable in binary64, parsed by
`pd.to_numeric`). -/
def c4rows : List Q2Row := [⟨some "b", some (9/2), none⟩]

/-- Claim C4 counterexample: the Q2 local aggregator keeps the rating sum
as a float, with no integer truncation (`t3q2.py` lines 70-79): a single
row with rating 4.5 yields a partial-aggregate sumScore of 9/2, which is
not an integer. -/
theorem q2_sum_not_integer_counterexample :
    q2Sum c4rows "b" = 9 / 2 ∧ (q2Sum c4rows "b").den = 2 := by
  have hs : q2Sum c4rows "b" = 9 / 2 := by
    simp [q2Sum, c4rows]
  refine ⟨hs, ?_⟩
  rw [hs]
  norm_num

/-- Partition used by the sumScore witness: one row with integral rating 5. -/
def c4wrows : List Q2Row := [⟨some "b", some 5, none⟩]

theorem q2_sum_integer_witness : (q2Sum c4wrows "b").den = 1 :=
  q2_sum_integer_when_ratings_integral c4wrows "b" (by
    intro r hr
    simp only [c4wrows, List.mem_singleton] at hr
    rw [hr]
    norm_num)

/-! ## Exact eligibility versus the float quotient (claim C1) -/

/-- Claim C1 (code-bug evidence): the three master coordinators decide
eligibility with the exact integer relations (`s == 5*c`, `s == 4*c`,
`s < 4*c`), but `t3.py` line 115 and `t3_master_only.py` line 73 compute
the binary64 quotient `avg = s / c` and test `avg == 5`.  At the merged
entry with sumScore 22517998136852464 and count 4503599627370493 (price
2): the exact relation rejects the entry, its exact quotient is not 5,
yet the quotient is closer to 5 than half an ulp of 5.0 in binary64
(2^(-51)), so IEEE-754 round-to-nearest division returns exactly 5.0 and
the Python float test `avg == 5` wrongly accepts the entry. -/
theorem t3_float_quotient_drift :
    q2Eligible ⟨22517998136852464, 4503599627370493, some 2⟩ = false
    ∧ (22517998136852464 : ℚ) ≠ 5 * ((4503599627370493 : ℕ) : ℚ)
    ∧ t3Avg 22517998136852464 4503599627370493 ≠ 5
    ∧ |t3Avg 22517998136852464 4503599627370493 - 5| < halfUlpAtFive := by
  have hne : (22517998136852464 : ℚ) ≠ 5 * ((4503599627370493 : ℕ) : ℚ) := by
    push_cast
    norm_num
  refine ⟨?_, hne, ?_, ?_⟩
  · simp only [q2Eligible, decide_eq_false_iff_not]
    simp only [Bool.and_eq_false_iff, decide_eq_false_iff_not]
    norm_num
  · show (22517998136852464 : ℚ) / ((4503599627370493 : ℕ) : ℚ) ≠ 5
    push_cast
    norm_num
  · show |(22517998136852464 : ℚ) / ((4503599627370493 : ℕ) : ℚ) - 5| < 1 / 2 ^ 51
    push_cast
    rw [abs_lt]
    constructor <;> norm_num

/-! ## Canonical-label pickers (t3q3_master.py `pick_display_name` lines
20-27, t3q4_master.py `pick_title` lines 20-27)

Both take a label counter (`Counter`, modelled as a `Multiset String`),
compute `top = max(c.values())`, sort the labels reaching `top` and
return the first — i.e. the lexicographically smallest top-count label.
`pick_display_name` returns the entity id when the counter is empty,
`pick_title` returns the empty string. -/

/-- `top = max(c.values())`: the highest occurrence count. -/
def topCount (tc : Multiset String) : ℕ := tc.toFinset.sup (fun a => tc.count a)

/-- `[n for n, v in c.items() if v == top]`: the labels with top count. -/
def topLabels (tc : Multiset String) : Finset String :=
  tc.toFinset.filter (fun a => tc.count a = topCount tc)

/-- One step of a structural minimum fold (models `sorted(...)[0]`). -/
def minFold (a : String) (acc : Option String) : Option String :=
  some (match acc with
  | none => a
  | some b => min a b)

instance : LeftCommutative minFold :=
  ⟨by
    intro a b acc
    cases acc with
    | none => simp [minFold, min_comm]
    | some c => simp [minFold, min_left_comm]⟩

/-- The lexicographically smallest element of a multiset of labels
(`sorted(candidates)[0]`), `none` when empty. -/
def msMin (s : Multiset String) : Option String := Multiset.foldr minFold none s

/-- `sorted([n for n, v in c.items() if v == top])[0]` — the shared body of
both pickers once the counter is known nonempty. -/
def pickTop (tc : Multiset String) : Option String := msMin (topLabels tc).val

/-- `pick_display_name(uid, counts)`: falls back to the entity id. -/
def pickDisplayName (uid : String) (tc : Multiset String) : String :=
  match pickTop tc with
  | none => uid
  | some l => l

/-- `pick_title(tc)`: falls back to the empty string. -/
def pickTitle (tc : Multiset String) : String :=
  match pickTop tc with
  | none => ""
  | some l => l

theorem msMin_spec (s : Multiset String) :
    (msMin s = none ↔ s = 0)
    ∧ ∀ m, msMin s = some m → m ∈ s ∧ ∀ x ∈ s, m ≤ x := by
  induction s using Multiset.induction_on with
  | empty =>
    refine ⟨⟨fun _ => rfl, fun _ => rfl⟩, ?_⟩
    intro m hm
    exact absurd hm (by simp [msMin])
  | cons a s ih =>
    have hcons : msMin (a ::ₘ s) = minFold a (msMin s) :=
      Multiset.foldr_cons _ _ _ _
    cases hms : msMin s with
    | none =>
      have hs0 : s = 0 := (ih.1).mp hms
      subst hs0
      have hval : msMin (a ::ₘ 0) = some a := by
        rw [hcons, hms]
        rfl
      refine ⟨⟨fun hc => absurd (hval ▸ hc) (by simp), fun hc => absurd hc (by simp)⟩, ?_⟩
      intro m hm
      rw [hval] at hm
      obtain rfl := Option.some.inj hm
      constructor
      · exact Multiset.mem_cons_self a 0
      · intro x hx
        rw [Multiset.mem_cons] at hx
        rcases hx with hx | hx
        · exact le_of_eq hx.symm
        · exact absurd hx (by simp)
    | some b =>
      obtain ⟨hbmem, hbmin⟩ := ih.2 b hms
      have hval : msMin (a ::ₘ s) = some (min a b) := by
        rw [hcons, hms]
        rfl
      refine ⟨⟨fun hc => absurd (hval ▸ hc) (by simp), fun hc => absurd hc (by simp)⟩, ?_⟩
      intro m hm
      rw [hval] at hm
      obtain rfl := Option.some.inj hm
      constructor
      · rcases le_total a b with hab | hba
        · rw [min_eq_left hab]
          exact Multiset.mem_cons_self a s
        · rw [min_eq_right hba]
          exact Multiset.mem_cons_of_mem hbmem
      · intro x hx
        rw [Multiset.mem_cons] at hx
        rcases hx with hx | hx
        · exact hx ▸ min_le_left a b
        · exact le_trans (min_le_right a b) (hbmin x hx)

theorem topLabels_nonempty {tc : Multiset String} (h : tc ≠ 0) :
    (topLabels tc).Nonempty := by
  have htf : tc.toFinset.Nonempty := by
    obtain ⟨a, ha⟩ := Multiset.exists_mem_of_ne_zero h
    exact ⟨a, Multiset.mem_toFinset.mpr ha⟩
  obtain ⟨a, ha, hsup⟩ := Finset.exists_mem_eq_sup tc.toFinset htf (fun a => tc.count a)
  exact ⟨a, Finset.mem_filter.mpr ⟨ha, hsup.symm⟩⟩

theorem pickTop_spec {tc : Multiset String} (h : tc ≠ 0) :
    ∃ l, pickTop tc = some l ∧ l ∈ topLabels tc ∧ ∀ x ∈ topLabels tc, l ≤ x := by
  cases hpt : pickTop tc with
  | none =>
    exfalso
    have hval : (topLabels tc).val = 0 := ((msMin_spec (topLabels tc).val).1).mp hpt
    obtain ⟨a, ha⟩ := topLabels_nonempty h
    rw [Finset.val_eq_zero] at hval
    rw [hval] at ha
    exact absurd ha (Finset.not_mem_empty a)
  | some l =>
    obtain ⟨hmem, hmin⟩ := (msMin_spec (topLabels tc).val).2 l hpt
    exact ⟨l, rfl, hmem, fun x hx => hmin x hx⟩

/-- The tie-break example of the spec: `labelFrequency =
{"Bob": 2, "Amy": 2, "Zoe": 1}`. -/
def amyCounts : Multiset String := {"Bob", "Bob", "Amy", "Amy", "Zoe"}

/-- Claim C6 (amended): both canonical-label pickers return the label with
the highest occurrence count, breaking ties among top-count labels by the
lexicographically smallest label string, and agree on every nonempty
counter; on the spec example `Bob:2, Amy:2, Zoe:1` both return `"Amy"`.
On an EMPTY counter only the Q3 picker (`pick_display_name`) falls back
to the entity id; the Q4 picker (`pick_title`) returns the empty string. -/
theorem canonical_label_picker_correct :
    (∀ uid : String, pickDisplayName uid 0 = uid)
    ∧ pickTitle 0 = ""
    ∧ (∀ (uid : String) (tc : Multiset String), tc ≠ 0 → pickDisplayName uid tc = pickTitle tc)
    ∧ (∀ tc : Multiset String, tc ≠ 0 →
        pickTitle tc ∈ tc.toFinset
        ∧ (∀ l ∈ tc.toFinset, tc.count l ≤ tc.count (pickTitle tc))
        ∧ (∀ l ∈ tc.toFinset, tc.count l = tc.count (pickTitle tc) → pickTitle tc ≤ l))
    ∧ pickDisplayName "u0" amyCounts = "Amy"
    ∧ pickTitle amyCounts = "Amy" := by
  have hAmy : pickTop amyCounts = some "Amy" := by
    have h0 : amyCounts ≠ 0 := by decide
    obtain ⟨l, hpick, hmem, hmin⟩ := pickTop_spec h0
    have htl : topLabels amyCounts = {"Amy", "Bob"} := by decide
    rw [htl] at hmem hmin
    have hBA : ¬ (("Bob" : String) ≤ "Amy") := by
      simp only [String.le_iff_toList_le]
      decide
    rcases Finset.mem_insert.mp hmem with hl | hl
    · rw [hpick, hl]
    · rw [Finset.mem_singleton] at hl
      exfalso
      have hle : l ≤ "Amy" := hmin "Amy" (Finset.mem_insert_self _ _)
      rw [hl] at hle
      exact hBA hle
  refine ⟨fun uid => rfl, rfl, ?_, ?_, ?_, ?_⟩
  · intro uid tc h
    obtain ⟨l, hpick, _, _⟩ := pickTop_spec h
    simp [pickDisplayName, pickTitle, hpick]
  · intro tc h
    obtain ⟨l, hpick, hmem, hmin⟩ := pickTop_spec h
    have hpt : pickTitle tc = l := by simp [pickTitle, hpick]
    rw [hpt]
    obtain ⟨hmemF, hcnt⟩ := Finset.mem_filter.mp hmem
    refine ⟨hmemF, ?_, ?_⟩
    · intro x hx
      rw [hcnt]
      exact @Finset.le_sup ℕ String _ _ tc.toFinset (fun a => tc.count a) x hx
    · intro x hx hcx
      apply hmin
      refine Finset.mem_filter.mpr ⟨hx, ?_⟩
      rw [hcx, hcnt]
  · simp [pickDisplayName, hAmy]
  · simp [pickTitle, hAmy]

/-- Claim C6 counterexample: on an empty labelFrequency map the Q4 picker
`pick_title` returns the empty string, not the entity id: for a book with
entity id "B1" and no observed titles the canonical label is `""`, which
differs from `"B1"` (the Q3 picker `pick_display_name` does return the
entity id). -/
theorem pick_title_empty_counterexample :
    pickTitle 0 = "" ∧ pickDisplayName "B1" 0 = "B1" ∧ pickTitle 0 ≠ "B1" :=
  ⟨rfl, rfl, by decide⟩

theorem canonical_label_picker_correct_witness :
    pickDisplayName "u0" amyCounts = pickTitle amyCounts
    ∧ pickTitle amyCounts ∈ amyCounts.toFinset :=
  ⟨canonical_label_picker_correct.2.2.1 "u0" amyCounts (by decide),
   (canonical_label_picker_correct.2.2.2.1 amyCounts (by decide)).1⟩

/-! ## Q4 top-10 Query Resolver (t3q4_master.py lines 97-113) -/

/-- The Python sort order `key=lambda x: (-x[1], x[0])`: price descending,
title ascending as tie-break. -/
def q4Order : (String × ℚ) → (String × ℚ) → Prop :=
  fun a b => b.2 < a.2 ∨ (a.2 = b.2 ∧ a.1 ≤ b.1)

instance : DecidableRel q4Order := fun a b => by
  unfold q4Order
  infer_instance

instance : IsTrans (String × ℚ) q4Order :=
  ⟨by
    intro a b c hab hbc
    rcases hab with h1 | ⟨h1e, h1t⟩ <;> rcases hbc with h2 | ⟨h2e, h2t⟩
    · exact Or.inl (lt_trans h2 h1)
    · exact Or.inl (h2e ▸ h1)
    · exact Or.inl (by rw [h1e]; exact h2)
    · exact Or.inr ⟨h1e.trans h2e, le_trans h1t h2t⟩⟩

instance : IsTotal (String × ℚ) q4Order :=
  ⟨by
    intro a b
    rcases lt_trichotomy a.2 b.2 with h | h | h
    · exact Or.inr (Or.inl h)
    · rcases le_total a.1 b.1 with ht | ht
      · exact Or.inl (Or.inr ⟨h, ht⟩)
      · exact Or.inr (Or.inr ⟨h.symm, ht⟩)
    · exact Or.inl (Or.inl h)⟩

/-- The candidate filter loop: keep books with `c > 0`, exact integer
check `sum < 4 * c` and a known price; emit `(pick_title(...), price)`. -/
def q4Candidates (books : List (String × Q4Entry)) : List (String × ℚ) :=
  books.filterMap (fun be =>
    match be.2.price with
    | none => none
    | some p =>
      if 0 < be.2.cnt ∧ be.2.sum < 4 * (be.2.cnt : ℤ) then some (pickTitle be.2.titles, p)
      else none)

/-- `candidates.sort(key=lambda x: (-x[1], x[0]))` (a stable sort; since
the key determines the whole pair, any sort by `q4Order` is the same
list). -/
def q4SortedCandidates (books : List (String × Q4Entry)) : List (String × ℚ) :=
  List.insertionSort q4Order (q4Candidates books)

/-- One Python dict assignment `d[k] = v` on an association list with
unique keys (the only lists `dictOf` builds): update the value in place
if the key is present, append otherwise. -/
def dictInsert : List (String × ℚ) → String × ℚ → List (String × ℚ)
  | [], kv => [kv]
  | p :: d, kv => if p.1 = kv.1 then (p.1, kv.2) :: d else p :: dictInsert d kv

/-- The dict comprehension `{title: price for title, price in top10}`. -/
def dictOf (l : List (String × ℚ)) : List (String × ℚ) := l.foldl dictInsert []

/-- `final_answer` of the Q4 master: dict of the first 10 sorted candidates. -/
def q4Final (books : List (String × Q4Entry)) : List (String × ℚ) :=
  dictOf ((q4SortedCandidates books).take 10)

/-- Dict lookup (first — and with unique keys the only — match). -/
def lookupD (d : List (String × ℚ)) (k : String) : Option ℚ :=
  (d.find? (fun p => decide (p.1 = k))).map Prod.snd

/-- Claim C8: the top-K Query Resolver sorts exactly the eligible entities
(count > 0, sumScore < 4*count, price captured) by price descending with
title ascending as tie-break, takes the first 10 and returns them as an
ordered title-to-price mapping; when no entity is eligible the final
answer is the empty mapping. -/
theorem q4_topk_resolver_correct :
    (∀ books : List (String × Q4Entry), List.Sorted q4Order (q4SortedCandidates books))
    ∧ (∀ books : List (String × Q4Entry), (q4SortedCandidates books).Perm (q4Candidates books))
    ∧ (∀ books : List (String × Q4Entry),
        q4Final books = dictOf ((q4SortedCandidates books).take 10))
    ∧ (∀ books : List (String × Q4Entry), q4Candidates books = [] → q4Final books = []) := by
  refine ⟨fun books => List.sorted_insertionSort q4Order _,
    fun books => List.perm_insertionSort q4Order _, fun books => rfl, ?_⟩
  intro books h
  unfold q4Final q4SortedCandidates
  rw [h]
  rfl

/-- A book map with no eligible book (average not strictly below 4). -/
def c8books : List (String × Q4Entry) := [("B1", ⟨5, 1, some 3, {"T"}⟩)]

theorem q4_topk_resolver_correct_witness : q4Final c8books = [] :=
  q4_topk_resolver_correct.2.2.2 c8books rfl

theorem lookupD_dictInsert (d : List (String × ℚ)) (kv : String × ℚ) (k : String) :
    lookupD (dictInsert d kv) k = if k = kv.1 then some kv.2 else lookupD d k := by
  induction d with
  | nil =>
    by_cases h : k = kv.1
    · simp [dictInsert, lookupD, List.find?_cons_of_pos, h]
    · have hne : ¬ (kv.1 = k) := fun hc => h hc.symm
      simp [dictInsert, lookupD, hne, h]
  | cons p d ih =>
    by_cases hp : p.1 = kv.1
    · rw [dictInsert, if_pos hp]
      by_cases hk : k = kv.1
      · have hpk : p.1 = k := hp.trans hk.symm
        simp [lookupD, List.find?_cons_of_pos, hpk, hk]
      · have hpk : ¬ (p.1 = k) := fun hc => hk ((hp.symm.trans hc).symm)
        simp [lookupD, List.find?_cons_of_neg, hpk, hk]
    · rw [dictInsert, if_neg hp]
      by_cases hpk : p.1 = k
      · have hk : ¬ (k = kv.1) := fun hc => hp (hpk.trans hc)
        simp [lookupD, List.find?_cons_of_pos, hpk, hk]
      · have h1 : lookupD (p :: dictInsert d kv) k = lookupD (dictInsert d kv) k := by
          simp [lookupD, List.find?_cons_of_neg, hpk]
        have h2 : lookupD (p :: d) k = lookupD d k := by
          simp [lookupD, List.find?_cons_of_neg, hpk]
        rw [h1, ih, h2]

theorem dictOf_concat (l : List (String × ℚ)) (x : String × ℚ) :
    dictOf (l ++ [x]) = dictInsert (dictOf l) x := by
  unfold dictOf
  rw [List.foldl_append]
  rfl

theorem lookupD_dictOf (l : List (String × ℚ)) (k : String) :
    lookupD (dictOf l) k
      = ((l.filter (fun p => decide (p.1 = k))).getLast?).map Prod.snd := by
  induction l using List.reverseRecOn with
  | nil => rfl
  | append_singleton l x ih =>
    rw [dictOf_concat, lookupD_dictInsert]
    by_cases hk : k = x.1
    · rw [if_pos hk]
      have hfx : (l ++ [x]).filter (fun p => decide (p.1 = k))
          = l.filter (fun p => decide (p.1 = k)) ++ [x] := by
        rw [List.filter_append]
        congr 1
        simp [List.filter, hk.symm]
      rw [hfx, List.getLast?_concat]
      rfl
    · rw [if_neg hk]
      have hfx : (l ++ [x]).filter (fun p => decide (p.1 = k))
          = l.filter (fun p => decide (p.1 = k)) := by
        rw [List.filter_append]
        have : ¬ (x.1 = k) := fun hc => hk hc.symm
        simp [List.filter, this]
      rw [hfx, ih]

/-- An eligible Q4 entry with one rating of 0, a price and one title. -/
def c10e (p : ℚ) (t : String) : Q4Entry := ⟨0, 1, some p, {t}⟩

/-- Ten distinct eligible books; the two most expensive share the
canonical title "A". -/
def c10books : List (String × Q4Entry) :=
  [("b1", c10e 20 "A"), ("b2", c10e 10 "A"), ("b3", c10e 9 "T3"), ("b4", c10e 8 "T4"),
   ("b5", c10e 7 "T5"), ("b6", c10e 6 "T6"), ("b7", c10e 5 "T7"), ("b8", c10e 4 "T8"),
   ("b9", c10e 3 "T9"), ("b10", c10e 2 "T10")]

/-- Claim C10: the final top-10 answer is a mapping keyed by canonical
title, so a dict lookup returns the price of the LAST occurrence of the
title in insertion order (general conjunct), and two distinct eligible
books with equal canonical titles collapse into one entry: with ten
distinct eligible books, two of which share title "A" (prices 20 and 10),
the final mapping has only 9 entries and maps "A" to 10, the price of the
book that comes later in sorted order. -/
theorem q4_title_collapse :
    (∀ (l : List (String × ℚ)) (k : String),
        lookupD (dictOf l) k = ((l.filter (fun p => decide (p.1 = k))).getLast?).map Prod.snd)
    ∧ (c10books.map Prod.fst).Nodup
    ∧ (q4Candidates c10books).length = 10
    ∧ (q4Final c10books).length = 9
    ∧ lookupD (q4Final c10books) "A" = some 10 :=
  ⟨lookupD_dictOf, by decide, by decide, by decide, by decide⟩

/-! ## Coordination Protocol gather phase (t3q2_master.py lines 50-73 and
101-110)

The master sends each worker its range, then for each rank `r` in 1..W it
probes and receives either a result message or an error message.  The
list `msgs` models the per-rank terminal messages (index `i` is rank
`i+1`); because the master probes `source=r` in rank order, arrival order
is irrelevant.  A worker wraps its entire computation in
`try/except`, sending exactly one message of one kind. -/

inductive WorkerMsg where
  | result : (List (String × Q2Entry) × ℕ) → WorkerMsg
  | error : String → WorkerMsg
deriving DecidableEq

/-- `f"[rank {r}] {err}"`. -/
def tagRank (r : ℕ) (e : String) : String := "[rank " ++ toString r ++ "] " ++ e

/-- The `worker_errors` list collected by the gather loop, tagging each
error with its originating rank, starting at rank `r`. -/
def taggedErrorsFrom : ℕ → List WorkerMsg → List String
  | _, [] => []
  | r, WorkerMsg.error e :: rest => tagRank r e :: taggedErrorsFrom (r + 1) rest
  | r, WorkerMsg.result _ :: rest => taggedErrorsFrom (r + 1) rest

/-- The `worker_maps`/`per_rank_hits` payloads collected by the gather loop. -/
def resultsOf (msgs : List WorkerMsg) : List (List (String × Q2Entry) × ℕ) :=
  msgs.filterMap (fun m =>
    match m with
    | WorkerMsg.result p => some p
    | WorkerMsg.error _ => none)

/-- The printed job result record: `final_answer` (an error list or the
final count), `chunkSizePerThread`, `answerPerThread`, `totalTimeTaken`. -/
structure JobOutcome where
  final : Except (List String) ℕ
  chunkSizePerThread : List ℕ
  answerPerThread : List ℕ
  totalTimeTaken : ℚ

/-- The Q2 master after the gather phase: abort with all tagged errors and
empty statistics fields if any worker reported an error; otherwise merge
the partial maps, count the exactly-eligible books and report chunk sizes
(master first, with 0), diagnostics and elapsed time `t`. -/
def q2MasterGather (N W : ℕ) (t : ℚ) (msgs : List WorkerMsg) : JobOutcome :=
  let errs := taggedErrorsFrom 1 msgs
  if errs = [] then
    let maps := (resultsOf msgs).map Prod.fst
    let hits := (resultsOf msgs).map Prod.snd
    let final := ((q2Domain maps).filter (fun b => q2Eligible (q2MergeAll maps b))).length
    ⟨Except.ok final, 0 :: (ranges N W).map (fun pr => pr.2 - pr.1), 0 :: hits, t⟩
  else
    ⟨Except.error errs, [], [], 0⟩

/-- The worker-side `try/except`: a computation that either returns a
payload or raises is converted into exactly one message of one kind. -/
def workerSend (comp : Except String (List (String × Q2Entry) × ℕ)) : WorkerMsg :=
  match comp with
  | Except.ok p => WorkerMsg.result p
  | Except.error e => WorkerMsg.error e

theorem taggedErrorsFrom_mem (msgs : List WorkerMsg) :
    ∀ (r i : ℕ) (e : String), msgs[i]? = some (WorkerMsg.error e) →
      tagRank (r + i) e ∈ taggedErrorsFrom r msgs := by
  induction msgs with
  | nil =>
    intro r i e h
    simp at h
  | cons m rest ih =>
    intro r i e h
    cases i with
    | zero =>
      rw [List.getElem?_cons_zero] at h
      obtain rfl := Option.some.inj h
      show tagRank (r + 0) e ∈ taggedErrorsFrom r (WorkerMsg.error e :: rest)
      rw [taggedErrorsFrom]
      have hr0 : r + 0 = r := Nat.add_zero r
      rw [hr0]
      exact List.mem_cons_self _ _
    | succ i =>
      rw [List.getElem?_cons_succ] at h
      have hmem := ih (r + 1) i e h
      have harith : r + 1 + i = r + (i + 1) := by omega
      rw [harith] at hmem
      cases m with
      | error e' =>
        rw [taggedErrorsFrom]
        exact List.mem_cons_of_mem _ hmem
      | result p =>
        rw [taggedErrorsFrom]
        exact hmem

theorem taggedErrorsFrom_complete (msgs : List WorkerMsg) :
    ∀ (r : ℕ) (s : String), s ∈ taggedErrorsFrom r msgs →
      ∃ i e, msgs[i]? = some (WorkerMsg.error e) ∧ s = tagRank (r + i) e := by
  induction msgs with
  | nil =>
    intro r s h
    rw [taggedErrorsFrom] at h
    exact absurd h (List.not_mem_nil s)
  | cons m rest ih =>
    intro r s h
    cases m with
    | error e =>
      rw [taggedErrorsFrom] at h
      rcases List.mem_cons.mp h with hs | hs
      · exact ⟨0, e, by simp, by simpa using hs⟩
      · obtain ⟨i, e', hi, hsi⟩ := ih (r + 1) s hs
        refine ⟨i + 1, e', by simpa using hi, ?_⟩
        rw [hsi]
        congr 1
        omega
    | result p =>
      rw [taggedErrorsFrom] at h
      obtain ⟨i, e', hi, hsi⟩ := ih (r + 1) s h
      refine ⟨i + 1, e', by simpa using hi, ?_⟩
      rw [hsi]
      congr 1
      omega

/-- Claim C5: if any worker reports an error during gather, the job
outcome is the failure record whose final answer is exactly the list of
all reported worker errors, each tagged with the originating rank, with
empty chunk-size and diagnostic lists and zero elapsed time — no merged
result is produced; the tagged list is sound and complete with respect to
the per-rank messages; and a worker converts a raising computation into
exactly one error message (and a successful one into exactly one result
message). -/
theorem gather_error_aborts_job :
    (∀ (N W : ℕ) (t : ℚ) (msgs : List WorkerMsg), taggedErrorsFrom 1 msgs ≠ [] →
        q2MasterGather N W t msgs
          = ⟨Except.error (taggedErrorsFrom 1 msgs), [], [], 0⟩)
    ∧ (∀ (msgs : List WorkerMsg) (i : ℕ) (e : String),
        msgs[i]? = some (WorkerMsg.error e) → tagRank (1 + i) e ∈ taggedErrorsFrom 1 msgs)
    ∧ (∀ (msgs : List WorkerMsg) (s : String), s ∈ taggedErrorsFrom 1 msgs →
        ∃ i e, msgs[i]? = some (WorkerMsg.error e) ∧ s = tagRank (1 + i) e)
    ∧ (∀ e, workerSend (Except.error e) = WorkerMsg.error e)
    ∧ (∀ p, workerSend (Except.ok p) = WorkerMsg.result p) := by
  refine ⟨?_, ?_, ?_, fun e => rfl, fun p => rfl⟩
  · intro N W t msgs h
    simp only [q2MasterGather]
    rw [if_neg h]
  · intro msgs i e h
    exact taggedErrorsFrom_mem msgs 1 i e h
  · intro msgs s h
    exact taggedErrorsFrom_complete msgs 1 s h

/-- Messages of a two-worker gather in which rank 1 failed. -/
def c5msgs : List WorkerMsg := [WorkerMsg.error "boom", WorkerMsg.result ⟨[], 0⟩]

theorem gather_error_aborts_job_witness :
    q2MasterGather 10 2 0 c5msgs
      = ⟨Except.error (taggedErrorsFrom 1 c5msgs), [], [], 0⟩ :=
  gather_error_aborts_job.1 10 2 0 c5msgs (List.cons_ne_nil _ _)
